import Mathlib

/-!
Verification of the streaming generation-to-speech pipeline of the
`ai-teacher` service.

The embedding below follows the Python source:
  * `src/src/models/tts.py`   — `TTSManager` (text segmentation, synthesis
    worker, audio queue, force-flush, buffer clearing);
  * `src/src/api/routes.py`   — the `/llm` chat turn (reset, streaming,
    history compaction), the `/tts-stream` delivery channel (idle close),
    the persistent audio ring, and `/pronunciation` scoring;
  * `src/src/models/llm.py`   — `generate_stream` error behaviour.

Python strings are modelled as `List Char` (named `Str`); machine floats
of the pronunciation path are modelled as rationals; external
collaborators (the language model, the Kokoro synthesizer, the speech
recognizer) are abstract parameters, as they are out of scope of the
pipeline itself.
-/

/-- Python strings, modelled as lists of characters. -/
abbrev Str := List Char

/-- The whitespace characters removed by Python `str.strip()`
(ASCII whitespace: space, tab, newline, carriage return,
vertical tab, form feed). -/
def isSpaceB (c : Char) : Bool :=
  c == ' ' || c == '\t' || c == '\n' || c == '\r' || c == '\x0b' || c == '\x0c'

/-- Python `str.strip()`: drop leading whitespace. -/
def dropLeadWS (s : Str) : Str := s.dropWhile isSpaceB

/-- Python `str.strip()`: drop trailing whitespace. -/
def dropTrailWS (s : Str) : Str := (s.reverse.dropWhile isSpaceB).reverse

/-- Python `str.strip()` with no argument: remove leading and trailing
whitespace. -/
def pstrip (s : Str) : Str := dropTrailWS (dropLeadWS s)

/-- Python `str.rfind(c)`: the index of the last occurrence of `c`,
`none` where Python returns `-1`. -/
def rfindIdx : Str → Char → Option Nat
  | [], _ => none
  | d :: s, c =>
    match rfindIdx s c with
    | some i => some (i + 1)
    | none => if d == c then some 0 else none

/-- The sentence-ending marks of `TTSManager._should_process_buffer`
(`sentence_end_marks = ['.', '!', '?', ':', ';']`), in the order the
code scans them. -/
def sentenceEndMarks : List Char := ['.', '!', '?', ':', ';']

/-- The scan of `_should_process_buffer` over `sentence_end_marks`:
for each mark in order, take the last occurrence (`rfind`); if it is at
a positive index and the buffer is strictly longer than
`min_buffer_size`, split there, stripping both sides
(`text_buffer[:index+1].strip()` / `text_buffer[index+1:].strip()`);
otherwise try the next mark. -/
def scanMarks (minB : Nat) (buf : Str) : List Char → Option (Str × Str)
  | [] => none
  | m :: ms =>
    match rfindIdx buf m with
    | some i =>
      if 0 < i ∧ minB < buf.length then
        some (pstrip (buf.take (i + 1)), pstrip (buf.drop (i + 1)))
      else scanMarks minB buf ms
    | none => scanMarks minB buf ms

/-- `TTSManager._should_process_buffer`: returns the text to synthesize
together with the new (retained) buffer, or `none` when the buffer is
not to be processed.  An empty buffer is never processed; the
commented-out no-punctuation fallback of the source is absent, so a
buffer without a qualifying mark is never processed either. -/
def shouldProcessBuffer (minB : Nat) (buf : Str) : Option (Str × Str) :=
  if buf = [] then none
  else scanMarks minB buf sentenceEndMarks

/-- State of the text-to-speech pipeline, as far as text is concerned:
`buffer` is `TTSManager.text_buffer`; `units` records, in order, every
text unit handed to synthesis (by the worker or by `force_process`). -/
structure PipeState where
  buffer : Str
  units : List Str
  deriving DecidableEq, Repr

/-- `TTSManager.force_process`: if the buffer is nonempty, the whole
buffer (unstripped) becomes one text unit and the buffer is cleared. -/
def forceProcess (st : PipeState) : PipeState :=
  if st.buffer.length > 0 then
    { buffer := [], units := st.units ++ [st.buffer] }
  else st

/-- `TTSManager.add_text`: ignore empty text; append to the buffer; if
the added fragment contains one of `'.'`, `'!'`, `'?'`, immediately
`force_process` the whole buffer. -/
def addText (st : PipeState) (t : Str) : PipeState :=
  if t = [] then st
  else
    let st1 : PipeState := { st with buffer := st.buffer ++ t }
    if t.any (fun c => c ∈ (['.', '!', '?'] : List Char)) then forceProcess st1
    else st1

/-- One poll of `_generator_worker` restricted to its effect on the text
state: if `_should_process_buffer` yields a unit, the unit is emitted
and the retained remainder becomes the buffer. -/
def workerPoll (minB : Nat) (st : PipeState) : PipeState :=
  match shouldProcessBuffer minB st.buffer with
  | none => st
  | some (u, rest) => { buffer := rest, units := st.units ++ [u] }

/-- An event of a pipeline trace: either the turn controller feeds a
fragment (`add_text`), or the synthesis worker polls the buffer. -/
inductive PipeEv where
  | feed (t : Str)
  | poll
  deriving DecidableEq, Repr

/-- Run a trace of events from a state. -/
def runEvents (minB : Nat) (st : PipeState) : List PipeEv → PipeState
  | [] => st
  | PipeEv.feed t :: evs => runEvents minB (addText st t) evs
  | PipeEv.poll :: evs => runEvents minB (workerPoll minB st) evs

/-- The fragments fed in a trace, in order. -/
def fedFragments : List PipeEv → List Str
  | [] => []
  | PipeEv.feed t :: evs => t :: fedFragments evs
  | PipeEv.poll :: evs => fedFragments evs

/-- Concatenation of a list of strings. -/
def concatStr (l : List Str) : Str := l.foldr (· ++ ·) []

/-- The initial pipeline state: empty buffer, nothing emitted. -/
def initPipe : PipeState := { buffer := [], units := [] }

/-- `wsDeletes a b` holds when `b` is obtained from `a` by deleting some
(possibly none) whitespace characters, keeping everything else in place.
This is the precise sense in which the segmentation path is lossy: the
`strip()` calls around each split delete whitespace and nothing else. -/
def wsDeletes : Str → Str → Bool
  | [], [] => true
  | [], _ :: _ => false
  | c :: a, [] => isSpaceB c && wsDeletes a []
  | c :: a, d :: b => (c == d && wsDeletes a b) || (isSpaceB c && wsDeletes a (d :: b))

theorem wsDeletes_refl (s : Str) : wsDeletes s s = true := by
  induction s with
  | nil => rfl
  | cons c a ih => simp [wsDeletes, ih]

theorem wsDeletes_nil_right {a : Str} (h : ∀ c ∈ a, isSpaceB c = true) :
    wsDeletes a [] = true := by
  induction a with
  | nil => rfl
  | cons c a ih =>
    simp only [wsDeletes, Bool.and_eq_true]
    exact ⟨h c (by simp), ih fun d hd => h d (by simp [hd])⟩

theorem wsDeletes_cons_ws {c : Char} {a b : Str} (hc : isSpaceB c = true)
    (h : wsDeletes a b = true) : wsDeletes (c :: a) b = true := by
  cases b with
  | nil => simp [wsDeletes, hc, h]
  | cons d b => simp [wsDeletes, hc, h]

theorem wsDeletes_append {a b c d : Str} (h1 : wsDeletes a b = true)
    (h2 : wsDeletes c d = true) : wsDeletes (a ++ c) (b ++ d) = true := by
  induction a generalizing b with
  | nil =>
    cases b with
    | nil => simpa using h2
    | cons x b => simp [wsDeletes] at h1
  | cons x a ih =>
    cases b with
    | nil =>
      simp only [wsDeletes, Bool.and_eq_true] at h1
      simpa using wsDeletes_cons_ws h1.1 (ih h1.2)
    | cons y b =>
      simp only [wsDeletes, Bool.or_eq_true, Bool.and_eq_true] at h1
      rcases h1 with ⟨hxy, h1⟩ | ⟨hx, h1⟩
      · have := ih (b := b) h1
        simp only [List.cons_append, wsDeletes, Bool.or_eq_true, Bool.and_eq_true]
        exact Or.inl ⟨hxy, this⟩
      · have := ih (b := y :: b) h1
        simpa using wsDeletes_cons_ws hx this

theorem wsDeletes_trans {a b c : Str} (h1 : wsDeletes a b = true)
    (h2 : wsDeletes b c = true) : wsDeletes a c = true := by
  induction a generalizing b c with
  | nil =>
    cases b with
    | nil => cases c with
      | nil => rfl
      | cons z c => simp [wsDeletes] at h2
    | cons y b => simp [wsDeletes] at h1
  | cons x a ih =>
    cases b with
    | nil =>
      simp only [wsDeletes, Bool.and_eq_true] at h1
      cases c with
      | nil => simp [wsDeletes, h1.1, h1.2]
      | cons z c => simp [wsDeletes] at h2
    | cons y b =>
      simp only [wsDeletes, Bool.or_eq_true, Bool.and_eq_true] at h1
      rcases h1 with ⟨hxy, h1⟩ | ⟨hx, h1⟩
      · have hxy' : x = y := by simpa using hxy
        subst hxy'
        cases c with
        | nil =>
          simp only [wsDeletes, Bool.and_eq_true] at h2
          exact wsDeletes_cons_ws h2.1 (ih h1 h2.2)
        | cons z c =>
          simp only [wsDeletes, Bool.or_eq_true, Bool.and_eq_true] at h2
          rcases h2 with ⟨hyz, h2⟩ | ⟨hy, h2⟩
          · simp only [wsDeletes, Bool.or_eq_true, Bool.and_eq_true]
            exact Or.inl ⟨hyz, ih h1 h2⟩
          · exact wsDeletes_cons_ws hy (ih h1 h2)
      · exact wsDeletes_cons_ws hx (ih h1 h2)

theorem wsDeletes_dropLead (s : Str) : wsDeletes s (dropLeadWS s) = true := by
  induction s with
  | nil => rfl
  | cons c s ih =>
    by_cases hc : isSpaceB c = true
    · simpa [dropLeadWS, List.dropWhile, hc] using wsDeletes_cons_ws hc ih
    · have hc' : isSpaceB c = false := by revert hc; cases isSpaceB c <;> simp
      simp [dropLeadWS, List.dropWhile, hc', wsDeletes, wsDeletes_refl]

theorem wsDeletes_dropTrail (s : Str) : wsDeletes s (dropTrailWS s) = true := by
  have hdecomp : s = dropTrailWS s ++ (s.reverse.takeWhile isSpaceB).reverse := by
    conv_lhs => rw [← List.reverse_reverse s,
      ← List.takeWhile_append_dropWhile (p := isSpaceB) (l := s.reverse)]
    rw [List.reverse_append]
    rfl
  have hws : ∀ c ∈ (s.reverse.takeWhile isSpaceB).reverse, isSpaceB c = true := by
    intro c hc
    rw [List.mem_reverse] at hc
    exact List.mem_takeWhile_imp hc
  calc wsDeletes s (dropTrailWS s)
      = wsDeletes (dropTrailWS s ++ (s.reverse.takeWhile isSpaceB).reverse)
          (dropTrailWS s ++ []) := by rw [← hdecomp, List.append_nil]
    _ = true := wsDeletes_append (wsDeletes_refl _) (wsDeletes_nil_right hws)

theorem wsDeletes_pstrip (s : Str) : wsDeletes s (pstrip s) = true :=
  wsDeletes_trans (wsDeletes_dropLead s) (wsDeletes_dropTrail (dropLeadWS s))

theorem rfindIdx_mem {s : Str} {c : Char} {i : Nat} (h : rfindIdx s c = some i) :
    s.get? i = some c := by
  induction s generalizing i with
  | nil => simp [rfindIdx] at h
  | cons d s ih =>
    simp only [rfindIdx] at h
    cases hrec : rfindIdx s c with
    | some j =>
      rw [hrec] at h
      simp only [Option.some.injEq] at h
      subst h
      simpa using ih hrec
    | none =>
      rw [hrec] at h
      by_cases hd : (d == c) = true
      · simp only [hd, if_true, Option.some.injEq] at h
        subst h
        simpa using beq_iff_eq.mp hd
      · simp [hd] at h

theorem rfindIdx_none_not_mem {s : Str} {c : Char} (h : rfindIdx s c = none) :
    c ∉ s := by
  induction s with
  | nil => simp
  | cons d s ih =>
    simp only [rfindIdx] at h
    cases hrec : rfindIdx s c with
    | some j => rw [hrec] at h; simp at h
    | none =>
      rw [hrec] at h
      by_cases hd : (d == c) = true
      · simp [hd] at h
      · intro hmem
        rcases List.mem_cons.mp hmem with hdc | hcs
        · exact hd (beq_iff_eq.mpr hdc.symm)
        · exact ih hrec hcs

theorem rfindIdx_last {s : Str} {c : Char} {i : Nat} (h : rfindIdx s c = some i) :
    c ∉ s.drop (i + 1) := by
  induction s generalizing i with
  | nil => simp [rfindIdx] at h
  | cons d s ih =>
    simp only [rfindIdx] at h
    cases hrec : rfindIdx s c with
    | some j =>
      rw [hrec] at h
      simp only [Option.some.injEq] at h
      subst h
      simpa using ih hrec
    | none =>
      rw [hrec] at h
      by_cases hd : (d == c) = true
      · simp only [hd, if_true, Option.some.injEq] at h
        subst h
        simpa using rfindIdx_none_not_mem hrec
      · simp [hd] at h

theorem dropTrailWS_concat_nonws {t : Str} {c : Char} (hc : isSpaceB c = false) :
    dropTrailWS (t ++ [c]) = t ++ [c] := by
  simp [dropTrailWS, List.dropWhile, hc]

theorem dropLeadWS_concat_nonws {t : Str} {c : Char} (hc : isSpaceB c = false) :
    dropLeadWS (t ++ [c]) = dropLeadWS t ++ [c] := by
  induction t with
  | nil => simp [dropLeadWS, List.dropWhile, hc]
  | cons d t ih =>
    by_cases hd : isSpaceB d = true
    · simpa [dropLeadWS, List.dropWhile, hd] using ih
    · have hd' : isSpaceB d = false := by revert hd; cases isSpaceB d <;> simp
      simp [dropLeadWS, List.dropWhile, hd']

theorem pstrip_concat_nonws {t : Str} {c : Char} (hc : isSpaceB c = false) :
    pstrip (t ++ [c]) = dropLeadWS t ++ [c] := by
  rw [pstrip, dropLeadWS_concat_nonws hc, dropTrailWS_concat_nonws hc]

theorem pstrip_subset (s : Str) : pstrip s ⊆ s := by
  intro x hx
  have h1 : x ∈ dropLeadWS s := by
    have : dropTrailWS (dropLeadWS s) ⊆ dropLeadWS s := by
      intro y hy
      rw [dropTrailWS, List.mem_reverse] at hy
      have := (List.dropWhile_sublist (p := isSpaceB)
        (l := (dropLeadWS s).reverse)).subset hy
      simpa using this
    exact this hx
  exact (List.dropWhile_sublist (p := isSpaceB) (l := s)).subset h1

/-! ### Reset protocol (`/llm` route, routes.py lines 303–310)

At the start of every turn the chat handler clears the TTS text buffer
and drains the audio queue; the module-level `persistent_audio_buffer`
(the ring) is not touched by this step. -/

/-- Full TTS-side state for the reset step: the text buffer, the live
audio queue (`TTSManager.audio_queue`) and the persistent audio ring
(`persistent_audio_buffer` of routes.py), with audio data abstract. -/
structure TTSState (α : Type) where
  buffer : Str
  queue : List α
  ring : List α
  deriving Repr

/-- The drain loop
`while not audio_queue.empty(): audio_queue.get_nowait()`. -/
def drainQueue {α : Type} : List α → List α
  | [] => []
  | _ :: q => drainQueue q

/-- The reset step run at the start of a `/llm` turn
(`tts_manager.text_buffer = ""` followed by the drain loop). -/
def resetProtocol {α : Type} (st : TTSState α) : TTSState α :=
  { st with buffer := [], queue := drainQueue st.queue }

theorem drainQueue_eq_nil {α : Type} (q : List α) : drainQueue q = [] := by
  induction q with
  | nil => rfl
  | cons a q ih => simpa [drainQueue] using ih

/-! ### Lemmas about the segmentation scan -/

theorem scanMarks_none_of_short {minB : Nat} {buf : Str}
    (h : buf.length ≤ minB) : ∀ ms, scanMarks minB buf ms = none := by
  intro ms
  induction ms with
  | nil => rfl
  | cons m ms ih =>
    simp only [scanMarks]
    cases hr : rfindIdx buf m with
    | some i =>
      have : ¬(0 < i ∧ minB < buf.length) := by omega
      simp [this, ih]
    | none => simp [ih]

theorem scanMarks_some {minB : Nat} {buf : Str} {u r : Str} :
    ∀ {ms : List Char}, scanMarks minB buf ms = some (u, r) →
    ∃ m ∈ ms, ∃ i, rfindIdx buf m = some i ∧ 0 < i ∧ minB < buf.length ∧
      u = pstrip (buf.take (i + 1)) ∧ r = pstrip (buf.drop (i + 1)) := by
  intro ms h
  induction ms with
  | nil => simp [scanMarks] at h
  | cons m ms ih =>
    cases hr : rfindIdx buf m with
    | some i =>
      simp only [scanMarks, hr] at h
      by_cases hcond : 0 < i ∧ minB < buf.length
      · rw [if_pos hcond] at h
        simp only [Option.some.injEq, Prod.mk.injEq] at h
        exact ⟨m, by simp, i, hr, hcond.1, hcond.2, h.1.symm, h.2.symm⟩
      · rw [if_neg hcond] at h
        obtain ⟨m', hm', rest⟩ := ih h
        exact ⟨m', by simp [hm'], rest⟩
    | none =>
      simp only [scanMarks, hr] at h
      obtain ⟨m', hm', rest⟩ := ih h
      exact ⟨m', by simp [hm'], rest⟩

theorem scanMarks_isSome {minB : Nat} {buf : Str} {m : Char} {i : Nat}
    (hlen : minB < buf.length) :
    ∀ {ms : List Char}, m ∈ ms → rfindIdx buf m = some i → 0 < i →
    (scanMarks minB buf ms).isSome = true := by
  intro ms hm hr hi
  induction ms with
  | nil => simp at hm
  | cons m' ms ih =>
    simp only [scanMarks]
    cases hr' : rfindIdx buf m' with
    | some j =>
      by_cases hcond : 0 < j ∧ minB < buf.length
      · simp [hcond]
      · rcases List.mem_cons.mp hm with hmm | hmm
        · subst hmm
          rw [hr'] at hr
          simp only [Option.some.injEq] at hr
          exact absurd ⟨hr ▸ hi, hlen⟩ hcond
        · simp only [hcond, if_false]
          exact ih hmm
    | none =>
      rcases List.mem_cons.mp hm with hmm | hmm
      · subst hmm; rw [hr'] at hr; simp at hr
      · exact ih hmm

/-- The unit emitted at a split ends with the mark it split at, and that
mark does not occur in the retained remainder. -/
theorem split_unit_shape {buf : Str} {m : Char} {i : Nat}
    (hm : isSpaceB m = false) (hr : rfindIdx buf m = some i) :
    pstrip (buf.take (i + 1)) ≠ [] ∧
    (pstrip (buf.take (i + 1))).getLast? = some m ∧
    m ∉ pstrip (buf.drop (i + 1)) := by
  have hget : buf.get? i = some m := rfindIdx_mem hr
  have hget' : buf[i]? = some m := by
    rw [← List.get?_eq_getElem?]
    exact hget
  have htake : buf.take (i + 1) = buf.take i ++ [m] := by
    rw [List.take_succ, hget']
    rfl
  have hps : pstrip (buf.take (i + 1)) = dropLeadWS (buf.take i) ++ [m] := by
    rw [htake, pstrip_concat_nonws hm]
  refine ⟨by simp [hps], by simp [hps], fun hmem => ?_⟩
  exact rfindIdx_last hr (pstrip_subset _ hmem)

/-! ### Content invariant of the text pipeline -/

/-- All text currently in the pipeline: every unit handed to synthesis,
in order, followed by the pending buffer. -/
def content (st : PipeState) : Str := concatStr st.units ++ st.buffer

theorem concatStr_append (a b : List Str) :
    concatStr (a ++ b) = concatStr a ++ concatStr b := by
  induction a with
  | nil => simp [concatStr]
  | cons x a ih => simp [concatStr] at ih ⊢; simp [ih]

theorem concatStr_singleton (u : Str) : concatStr [u] = u := by
  simp [concatStr]

theorem content_forceProcess (st : PipeState) :
    content (forceProcess st) = content st := by
  by_cases h : st.buffer.length > 0
  · simp [forceProcess, h, content, concatStr_append, concatStr_singleton]
  · simp [forceProcess, h]

theorem content_addText (st : PipeState) (t : Str) :
    content (addText st t) = content st ++ t := by
  by_cases h : t = []
  · simp [addText, h]
  · simp only [addText, if_neg h]
    by_cases hp : t.any (fun c => c ∈ (['.', '!', '?'] : List Char)) = true
    · rw [if_pos hp, content_forceProcess]
      simp [content, List.append_assoc]
    · rw [if_neg hp]
      simp [content, List.append_assoc]

theorem shouldProcessBuffer_some {minB : Nat} {buf u r : Str}
    (h : shouldProcessBuffer minB buf = some (u, r)) :
    scanMarks minB buf sentenceEndMarks = some (u, r) := by
  by_cases hb : buf = []
  · simp [shouldProcessBuffer, hb] at h
  · simpa [shouldProcessBuffer, hb] using h

theorem wsDeletes_split {minB : Nat} {buf u r : Str}
    (h : shouldProcessBuffer minB buf = some (u, r)) :
    wsDeletes buf (u ++ r) = true := by
  obtain ⟨m, _, i, _, _, _, hu, hr⟩ := scanMarks_some (shouldProcessBuffer_some h)
  subst hu hr
  calc wsDeletes buf (pstrip (buf.take (i + 1)) ++ pstrip (buf.drop (i + 1)))
      = wsDeletes (buf.take (i + 1) ++ buf.drop (i + 1))
          (pstrip (buf.take (i + 1)) ++ pstrip (buf.drop (i + 1))) := by
        rw [List.take_append_drop]
    _ = true := wsDeletes_append (wsDeletes_pstrip _) (wsDeletes_pstrip _)

theorem content_workerPoll (minB : Nat) (st : PipeState) :
    wsDeletes (content st) (content (workerPoll minB st)) = true := by
  cases h : shouldProcessBuffer minB st.buffer with
  | none => simp [workerPoll, h, wsDeletes_refl]
  | some ur =>
    obtain ⟨u, r⟩ := ur
    have hsplit := wsDeletes_split h
    simp only [workerPoll, h, content, concatStr_append, concatStr_singleton,
      List.append_assoc]
    exact wsDeletes_append (wsDeletes_refl (concatStr st.units)) hsplit

theorem runEvents_ws (minB : Nat) :
    ∀ (evs : List PipeEv) (st : PipeState),
    wsDeletes (content st ++ concatStr (fedFragments evs))
      (content (runEvents minB st evs)) = true := by
  intro evs
  induction evs with
  | nil => intro st; simp [runEvents, fedFragments, concatStr, wsDeletes_refl]
  | cons e evs ih =>
    intro st
    cases e with
    | feed t =>
      have := ih (addText st t)
      rw [content_addText] at this
      simpa [runEvents, fedFragments, concatStr, List.append_assoc] using this
    | poll =>
      have h1 : wsDeletes (content st ++ concatStr (fedFragments evs))
          (content (workerPoll minB st) ++ concatStr (fedFragments evs)) = true :=
        wsDeletes_append (content_workerPoll minB st)
          (wsDeletes_refl (concatStr (fedFragments evs)))
      have h2 := ih (workerPoll minB st)
      simpa [runEvents, fedFragments] using wsDeletes_trans h1 h2

theorem runEvents_content_nopoll (minB : Nat) :
    ∀ (evs : List PipeEv) (st : PipeState), PipeEv.poll ∉ evs →
    content (runEvents minB st evs) = content st ++ concatStr (fedFragments evs) := by
  intro evs
  induction evs with
  | nil => intro st _; simp [runEvents, fedFragments, concatStr]
  | cons e evs ih =>
    intro st hnp
    cases e with
    | feed t =>
      have hnp' : PipeEv.poll ∉ evs := fun h => hnp (by simp [h])
      rw [runEvents, ih (addText st t) hnp', content_addText]
      simp [fedFragments, concatStr, List.append_assoc]
    | poll => exact absurd (by simp) hnp

theorem forceProcess_buffer (st : PipeState) : (forceProcess st).buffer = [] := by
  by_cases h : st.buffer.length > 0
  · simp [forceProcess, h]
  · have : st.buffer = [] := by
      cases hb : st.buffer with
      | nil => rfl
      | cons c b => rw [hb] at h; simp at h
    simp [forceProcess, h, this]

/-! ### Claim C1 -/

/-- C1: after the reset step run at the start of a new `/llm` turn
(clear the text buffer, drain the audio queue), the TextSegmenter buffer
is the empty string, the AudioQueue contains zero units, and the
PersistentAudioRing is left unchanged, for every prior pipeline state. -/
theorem reset_clears_buffer_and_queue_preserves_ring {α : Type} (st : TTSState α) :
    (resetProtocol st).buffer = [] ∧ (resetProtocol st).queue = [] ∧
    (resetProtocol st).ring = st.ring :=
  ⟨rfl, drainQueue_eq_nil st.queue, rfl⟩

/-! ### Claim C2 -/

theorem sentenceEndMarks_not_ws : ∀ m ∈ sentenceEndMarks, isSpaceB m = false := by
  decide

/-- C2 (counterexample): the claim says the emitted TextUnit is the
prefix through the *last* sentence-ending mark in the buffer.  On a
buffer of length 56 ≥ 50 whose last mark is the final `';'`, the code
instead splits at the last `'.'` (the marks are scanned in the priority
order `['.', '!', '?', ':', ';']`), so the emitted unit is not the
prefix through the last mark. -/
theorem segmentation_splits_at_dot_not_last_mark :
    (50 ≤ ("The first sentence is. followed by some more words here;".toList :
        Str).length) ∧
    ("The first sentence is. followed by some more words here;".toList :
        Str).getLast? = some ';' ∧
    shouldProcessBuffer 50
        ("The first sentence is. followed by some more words here;".toList) ≠
      some ("The first sentence is. followed by some more words here;".toList, []) ∧
    shouldProcessBuffer 50
        ("The first sentence is. followed by some more words here;".toList) =
      some ("The first sentence is.".toList,
        "followed by some more words here;".toList) := by
  decide

/-- C2 (amended): at a segmentation check, if the buffer length is at
most `minBufferSize` (in particular below it) no unit is emitted; if the
buffer is strictly longer than `minBufferSize` and some mark of
`['.', '!', '?', ':', ';']` occurs at a positive index, exactly one
TextUnit is emitted: the marks are scanned in that priority order, the
split is at the last occurrence of the first mark found at a positive
index (so a `'.'` at a positive index always wins), both sides of the
split are whitespace-stripped, the emitted unit is nonempty and ends
with the chosen mark, that mark does not recur in the retained
remainder, and unit-plus-remainder is the buffer with some whitespace
deleted. -/
theorem shouldProcessBuffer_boundary_rule (minB : Nat) (buf : Str) :
    (buf.length ≤ minB → shouldProcessBuffer minB buf = none) ∧
    (∀ i, rfindIdx buf '.' = some i → 0 < i → minB < buf.length →
      shouldProcessBuffer minB buf =
        some (pstrip (buf.take (i + 1)), pstrip (buf.drop (i + 1)))) ∧
    (minB < buf.length →
      (∃ m ∈ sentenceEndMarks, ∃ i, rfindIdx buf m = some i ∧ 0 < i) →
      (shouldProcessBuffer minB buf).isSome = true) ∧
    (∀ u r, shouldProcessBuffer minB buf = some (u, r) →
      minB < buf.length ∧ u ≠ [] ∧
      (∃ m ∈ sentenceEndMarks, u.getLast? = some m ∧ m ∉ r) ∧
      wsDeletes buf (u ++ r) = true) := by
  refine ⟨fun hshort => ?_, fun i hdot hi hlen => ?_, fun hlen hex => ?_,
    fun u r h => ?_⟩
  · by_cases hb : buf = []
    · simp [shouldProcessBuffer, hb]
    · simp [shouldProcessBuffer, hb, scanMarks_none_of_short hshort]
  · have hne : buf ≠ [] := by
      intro hb; subst hb; simp [rfindIdx] at hdot
    simp [shouldProcessBuffer, hne, sentenceEndMarks, scanMarks, hdot, hi, hlen]
  · obtain ⟨m, hm, i, hr, hi⟩ := hex
    have hne : buf ≠ [] := by
      intro hb; subst hb; simp [rfindIdx] at hr
    simpa [shouldProcessBuffer, hne] using scanMarks_isSome hlen hm hr hi
  · obtain ⟨m, hm, i, hr, hi, hlen, hu, hrr⟩ :=
      scanMarks_some (shouldProcessBuffer_some h)
    obtain ⟨hne, hlast, hnot⟩ :=
      split_unit_shape (sentenceEndMarks_not_ws m hm) hr
    exact ⟨hlen, hu ▸ hne, ⟨m, hm, hu ▸ hlast, hrr ▸ hnot⟩, wsDeletes_split h⟩

/-- C2 witness: a 51-character buffer ending in `'.'` is split by the
boundary rule exactly at that mark. -/
theorem shouldProcessBuffer_boundary_rule_witness :
    shouldProcessBuffer 50
        ("This sentence is long enough to exceed the minimum.".toList) =
      some (pstrip (("This sentence is long enough to exceed the minimum.".toList :
              Str).take 51),
            pstrip (("This sentence is long enough to exceed the minimum.".toList :
              Str).drop 51)) :=
  (shouldProcessBuffer_boundary_rule 50 _).2.1 50 (by decide) (by decide) (by decide)

/-! ### Claim C3 -/

/-- C3 (counterexample): character-for-character reconstruction fails,
because the worker's segmentation strips whitespace around each split.
Feeding one 54-character fragment `"aaa…a; b"` and letting the worker
poll once loses the space after the `';'`: the concatenation of the
emitted units plus the final force-flush remainder differs from the
concatenation of the fed fragments. -/
theorem pipeline_reconstruction_not_exact :
    concatStr (forceProcess (runEvents 50 initPipe
        [PipeEv.feed (List.replicate 51 'a' ++ "; b".toList), PipeEv.poll])).units ≠
      concatStr (fedFragments
        [PipeEv.feed (List.replicate 51 'a' ++ "; b".toList), PipeEv.poll]) := by
  decide

/-- C3 (amended): for every finite trace of fed fragments and worker
polls, concatenating all emitted TextUnits in emission order followed by
the final forceFlush remainder reconstructs the concatenation of all fed
fragments up to deletion of whitespace characters at the segmentation
splits (and nothing else); the final buffer is empty, and when the
worker never segments (no poll events) the reconstruction is exact,
character for character. -/
theorem pipeline_lossless_up_to_whitespace (minB : Nat) (evs : List PipeEv) :
    (forceProcess (runEvents minB initPipe evs)).buffer = [] ∧
    wsDeletes (concatStr (fedFragments evs))
      (concatStr (forceProcess (runEvents minB initPipe evs)).units) = true ∧
    (PipeEv.poll ∉ evs →
      concatStr (forceProcess (runEvents minB initPipe evs)).units =
        concatStr (fedFragments evs)) := by
  have hcf : ∀ st : PipeState, concatStr (forceProcess st).units = content st := by
    intro st
    rw [← content_forceProcess]
    unfold content
    rw [forceProcess_buffer, List.append_nil]
  refine ⟨forceProcess_buffer _, ?_, fun hnp => ?_⟩
  · have h1 := runEvents_ws minB evs initPipe
    have h2 : content initPipe = [] := rfl
    rw [h2, List.nil_append] at h1
    rw [hcf]
    exact h1
  · rw [hcf, runEvents_content_nopoll minB evs initPipe hnp]
    rfl

/-- C3 witness: a trace with a single fed fragment and no worker poll
reconstructs exactly (Scenario C: an unpunctuated `"Great job"` is
force-flushed verbatim). -/
theorem pipeline_lossless_witness :
    concatStr (forceProcess (runEvents 50 initPipe
        [PipeEv.feed ("Great job".toList)])).units =
      concatStr (fedFragments [PipeEv.feed ("Great job".toList)]) :=
  (pipeline_lossless_up_to_whitespace 50 _).2.2 (by decide)

/-! ### Persistent audio ring (routes.py `persistent_audio_buffer`,
tts.py `_generator_worker` / `force_process` push logic) -/

/-- Pushing one audio unit into the persistent ring:
`if persistent_audio_buffer.full(): get_nowait()` (evict the oldest)
followed by `put` (append the newest).  The list head is the oldest
entry. -/
def ringPush {α : Type} (cap : Nat) (r : List α) (a : α) : List α :=
  if cap ≤ r.length then r.tail ++ [a] else r ++ [a]

/-- Pushing a sequence of audio units, in order, into an empty ring. -/
def ringFold {α : Type} (cap : Nat) (xs : List α) : List α :=
  xs.foldl (ringPush cap) []

theorem ringFold_eq_drop {α : Type} (cap : Nat) (hcap : 0 < cap) :
    ∀ xs : List α, ringFold cap xs = xs.drop (xs.length - cap) := by
  intro xs
  induction xs using List.reverseRecOn with
  | nil => simp [ringFold]
  | append_singleton xs a ih =>
    have hstep : ringFold cap (xs ++ [a]) = ringPush cap (ringFold cap xs) a := by
      simp [ringFold]
    rw [hstep, ih]
    by_cases h : cap ≤ xs.length
    · have hlen : (xs.drop (xs.length - cap)).length = cap := by
        rw [List.length_drop]; omega
      rw [ringPush, if_pos (by omega : cap ≤ (xs.drop (xs.length - cap)).length)]
      rw [List.tail_drop]
      have hle : xs.length + 1 - cap ≤ xs.length := by omega
      rw [List.drop_append_of_le_length (by simpa using hle)]
      have : xs.length - cap + 1 = xs.length + 1 - cap := by omega
      simp [this]
    · have h0 : xs.length - cap = 0 := by omega
      have h1 : (xs ++ [a]).length - cap = 0 := by simp; omega
      rw [ringPush, if_neg (by rw [List.length_drop]; omega)]
      have h2 : xs.length + 1 - cap = 0 := by omega
      simp [h0, h2]

/-! ### Claim C8 -/

/-- C8: pushing `n > 20` AudioUnits into the PersistentAudioRing of
capacity 20 leaves the ring containing exactly the last 20 pushed units
in oldest-first order (the oldest unit is evicted on each overflow). -/
theorem ring_keeps_last_twenty {α : Type} (xs : List α) (h : 20 < xs.length) :
    ringFold 20 xs = xs.drop (xs.length - 20) ∧ (ringFold 20 xs).length = 20 := by
  refine ⟨ringFold_eq_drop 20 (by omega) xs, ?_⟩
  rw [ringFold_eq_drop 20 (by omega) xs, List.length_drop]
  omega

/-- C8 witness: pushing units 1 through 25 leaves exactly units 6
through 25, oldest first. -/
theorem ring_keeps_last_twenty_witness :
    ringFold 20 (List.range' 1 25) =
        (List.range' 1 25).drop ((List.range' 1 25).length - 20) ∧
      (ringFold 20 (List.range' 1 25)).length = 20 ∧
      ringFold 20 (List.range' 1 25) = List.range' 6 20 :=
  ⟨(ring_keeps_last_twenty (List.range' 1 25) (by decide)).1,
   (ring_keeps_last_twenty (List.range' 1 25) (by decide)).2,
   by decide⟩

/-! ### The synthesis worker loop (`TTSManager._generator_worker`) -/

/-- State seen by one pass of the worker loop: text buffer, live audio
queue, persistent ring. -/
structure WorkState (α : Type) where
  buffer : Str
  queue : List α
  ring : List α
  deriving Repr

/-- One pass of the `_generator_worker` loop body, with the synthesizer
abstracted as `synth` (`none` models `_generate_audio_internal`
returning an empty array — empty synthesis result or a caught
exception): poll `_should_process_buffer`; on a unit, synthesize; only a
nonempty result is pushed to the audio queue and mirrored into the
persistent ring (capacity 20). -/
def generatorIter {α : Type} (synth : Str → Option α) (minB : Nat)
    (st : WorkState α) : WorkState α :=
  match shouldProcessBuffer minB st.buffer with
  | none => st
  | some (u, rest) =>
    match synth u with
    | none => { st with buffer := rest }
    | some a =>
      { buffer := rest, queue := st.queue ++ [a], ring := ringPush 20 st.ring a }

/-! ### Claim C7 -/

/-- C7: a text unit whose synthesis returns an empty result or raises an
exception contributes no AudioUnit: the audio queue and the persistent
ring are unchanged by it, only the buffer advances past the unit, and
the worker loop continues — a following unit whose synthesis succeeds is
still enqueued. -/
theorem failed_unit_skipped_pipeline_continues {α : Type}
    (synth : Str → Option α) (minB : Nat) (st : WorkState α) (u rest : Str)
    (hsp : shouldProcessBuffer minB st.buffer = some (u, rest))
    (hfail : synth u = none) :
    (generatorIter synth minB st).queue = st.queue ∧
    (generatorIter synth minB st).ring = st.ring ∧
    (generatorIter synth minB st).buffer = rest ∧
    (∀ u' rest' a, shouldProcessBuffer minB rest = some (u', rest') →
      synth u' = some a →
      (generatorIter synth minB (generatorIter synth minB st)).queue =
        st.queue ++ [a] ∧
      (generatorIter synth minB (generatorIter synth minB st)).ring =
        ringPush 20 st.ring a) := by
  have h1 : generatorIter synth minB st = { st with buffer := rest } := by
    simp [generatorIter, hsp, hfail]
  refine ⟨by simp [h1], by simp [h1], by simp [h1], fun u' rest' a hsp' hok => ?_⟩
  rw [h1]
  constructor <;> simp [generatorIter, hsp', hok]

/-- C7 witness: on a buffer holding a bad sentence followed by a good
one, the bad unit is dropped with queue and ring untouched, and the good
unit is still synthesized and enqueued on the next pass. -/
theorem failed_unit_skipped_witness :
    (generatorIter
        (fun s => if s = List.replicate 51 'a' ++ ['.'] then none else some 7)
        50
        ({ buffer := (List.replicate 51 'a' ++ ['.']) ++
            (List.replicate 51 'b' ++ [';']), queue := [], ring := [] } :
          WorkState Nat)).queue = [] ∧
    (generatorIter
        (fun s => if s = List.replicate 51 'a' ++ ['.'] then none else some 7)
        50
        ({ buffer := (List.replicate 51 'a' ++ ['.']) ++
            (List.replicate 51 'b' ++ [';']), queue := [], ring := [] } :
          WorkState Nat)).ring = [] := by
  have h := failed_unit_skipped_pipeline_continues
    (fun s => if s = List.replicate 51 'a' ++ ['.'] then none else some (7 : Nat))
    50
    ({ buffer := (List.replicate 51 'a' ++ ['.']) ++
        (List.replicate 51 'b' ++ [';']), queue := [], ring := [] } :
      WorkState Nat)
    (List.replicate 51 'a' ++ ['.'])
    (List.replicate 51 'b' ++ [';'])
    (by decide) (by decide)
  exact ⟨h.1, h.2.1⟩

/-! ### Interleaving model of synthesis (worker thread vs request thread)

`_generator_worker` runs on its own thread; `add_text` (and through it
`force_process`) runs on the request thread of the `/llm` route.  Both
call `_generate_audio_internal` with no lock.  A synthesis call is split
into a start step (the unit is taken) and a finish step (the audio is
produced), so that "in flight" is observable. -/

/-- Global state of the two-thread interleaving: the shared text buffer,
the unit each thread is currently synthesizing (if any), the audio
queue, and a log of the units whose synthesis has completed, in
completion order. -/
structure ConcState (α : Type) where
  buffer : Str
  workerBusy : Option Str
  callerBusy : Option Str
  queue : List α
  log : List Str
  deriving Repr

/-- Number of synthesis calls currently in flight. -/
def inFlight {α : Type} (s : ConcState α) : Nat :=
  (cond s.workerBusy.isSome 1 0) + (cond s.callerBusy.isSome 1 0)

/-- The initial state: empty buffer, no synthesis running, nothing
produced. -/
def initConc {α : Type} : ConcState α :=
  { buffer := [], workerBusy := none, callerBusy := none, queue := [], log := [] }

/-- One interleaved step of the pipeline:
`wStart`/`wFinish` are the worker loop taking a unit from
`_should_process_buffer` and completing its synthesis (pushing nonempty
audio); `cAppend` is `add_text` appending a fragment to the shared
buffer; `cForceStart`/`cForceFinish` are `force_process` (invoked by
`add_text` on a sentence-ending fragment, or at end of turn) taking the
whole buffer and completing its synthesis on the request thread. -/
inductive ConcStep {α : Type} (synth : Str → Option α) (minB : Nat) :
    ConcState α → ConcState α → Prop
  | wStart {s : ConcState α} {u rest : Str} :
      s.workerBusy = none →
      shouldProcessBuffer minB s.buffer = some (u, rest) →
      ConcStep synth minB s { s with buffer := rest, workerBusy := some u }
  | wFinish {s : ConcState α} {u : Str} :
      s.workerBusy = some u →
      ConcStep synth minB s
        { s with workerBusy := none,
                 queue := s.queue ++ (synth u).toList,
                 log := s.log ++ [u] }
  | cAppend {s : ConcState α} (t : Str) :
      t ≠ [] →
      ConcStep synth minB s { s with buffer := s.buffer ++ t }
  | cForceStart {s : ConcState α} :
      s.callerBusy = none → s.buffer ≠ [] →
      ConcStep synth minB s { s with buffer := [], callerBusy := some s.buffer }
  | cForceFinish {s : ConcState α} {u : Str} :
      s.callerBusy = some u →
      ConcStep synth minB s
        { s with callerBusy := none,
                 queue := s.queue ++ (synth u).toList,
                 log := s.log ++ [u] }

/-- States reachable from the initial state by interleaved steps. -/
inductive ConcReach {α : Type} (synth : Str → Option α) (minB : Nat) :
    ConcState α → Prop
  | init : ConcReach synth minB initConc
  | step {s s' : ConcState α} :
      ConcReach synth minB s → ConcStep synth minB s s' → ConcReach synth minB s'

/-- Executions in which only the worker thread acts (no `force_process`
interleaving), starting from an arbitrary state. -/
inductive WorkerRun {α : Type} (synth : Str → Option α) (minB : Nat) :
    ConcState α → ConcState α → Prop
  | refl (s : ConcState α) : WorkerRun synth minB s s
  | start {s0 s : ConcState α} {u rest : Str} :
      WorkerRun synth minB s0 s →
      s.workerBusy = none →
      shouldProcessBuffer minB s.buffer = some (u, rest) →
      WorkerRun synth minB s0 { s with buffer := rest, workerBusy := some u }
  | finish {s0 s : ConcState α} {u : Str} :
      WorkerRun synth minB s0 s →
      s.workerBusy = some u →
      WorkerRun synth minB s0
        { s with workerBusy := none,
                 queue := s.queue ++ (synth u).toList,
                 log := s.log ++ [u] }

/-! ### Claim C4 -/

/-- A trivial synthesizer for the concurrency counterexample. -/
def cexSynth : Str → Option Nat := fun _ => some 0

/-- A synthesizer mapping text to its length, for the worker witness. -/
def lenSynth : Str → Option Nat := fun s => some s.length

theorem filterMap_one {α β : Type} (f : α → Option β) (a : α) :
    List.filterMap f [a] = (f a).toList := by
  cases h : f a <;> simp [List.filterMap_cons, h]

/-- C4 (counterexample): it is not the case that at most one synthesis
call is in flight at every moment of every execution.  With the worker
mid-synthesis on a first unit, `add_text` of a fragment containing `'.'`
on the request thread triggers `force_process`, which starts a second
synthesis concurrently: a state with two units in flight is reachable. -/
theorem two_synthesis_calls_in_flight_reachable :
    ¬ (∀ s : ConcState Nat, ConcReach cexSynth 50 s → inFlight s ≤ 1) := by
  intro hclaim
  have r1 : ConcReach cexSynth 50
      ({ buffer := List.replicate 51 'a' ++ [';', 'x'], workerBusy := none,
         callerBusy := none, queue := [], log := [] } : ConcState Nat) :=
    ConcReach.init.step
      (ConcStep.cAppend (List.replicate 51 'a' ++ [';', 'x']) (by decide))
  have r2 : ConcReach cexSynth 50
      ({ buffer := ['x'], workerBusy := some (List.replicate 51 'a' ++ [';']),
         callerBusy := none, queue := [], log := [] } : ConcState Nat) :=
    r1.step (ConcStep.wStart rfl
      (show shouldProcessBuffer 50 (List.replicate 51 'a' ++ [';', 'x']) =
          some (List.replicate 51 'a' ++ [';'], ['x']) by decide))
  have r3 : ConcReach cexSynth 50
      ({ buffer := ['x', 'y', '.'],
         workerBusy := some (List.replicate 51 'a' ++ [';']),
         callerBusy := none, queue := [], log := [] } : ConcState Nat) :=
    r2.step (ConcStep.cAppend ['y', '.'] (by decide))
  have r4 : ConcReach cexSynth 50
      ({ buffer := [], workerBusy := some (List.replicate 51 'a' ++ [';']),
         callerBusy := some ['x', 'y', '.'], queue := [], log := [] } :
        ConcState Nat) :=
    r3.step (ConcStep.cForceStart rfl (by decide))
  exact absurd (hclaim _ r4) (by decide)

/-- C4 (amended): the synthesis worker loop itself never has two units
in flight: in any execution consisting only of worker steps from a state
with no request-thread synthesis running, at most one synthesis call is
in flight at every moment, and the audio queue is exactly the ordered
image of the worker\'s completed text units under the synthesizer
(failed units dropped) — single-unit-at-a-time processing preserving
FIFO order.  (Concurrent `force_process` calls from the request thread
are what break the global single-flight property.) -/
theorem worker_single_unit_in_flight_fifo {α : Type} (synth : Str → Option α)
    (minB : Nat) (s0 s : ConcState α) (hrun : WorkerRun synth minB s0 s)
    (hc : s0.callerBusy = none) (hq : s0.queue = s0.log.filterMap synth) :
    inFlight s ≤ 1 ∧ s.callerBusy = none ∧
    s.queue = s.log.filterMap synth := by
  induction hrun with
  | refl =>
    refine ⟨?_, hc, hq⟩
    unfold inFlight
    rw [hc]
    cases s0.workerBusy <;> simp
  | start hrun hbusy hsp ih =>
    refine ⟨?_, ih.2.1, ih.2.2⟩
    simp [inFlight, ih.2.1]
  | finish hrun hbusy ih =>
    refine ⟨?_, ih.2.1, ?_⟩
    · simp [inFlight, ih.2.1]
    · simp [List.filterMap_append, ih.2.2, filterMap_one]

/-- The end state of the concrete worker-only run used as the C4
witness. -/
def fifoWitnessState : ConcState Nat :=
  { buffer := ['x'], workerBusy := none, callerBusy := none,
    queue := [52], log := [List.replicate 51 'a' ++ [';']] }

/-- C4 witness: a concrete worker-only run (take one unit, finish it)
ends with at most one unit in flight and a FIFO queue. -/
theorem worker_single_unit_in_flight_fifo_witness :
    inFlight fifoWitnessState ≤ 1 ∧ fifoWitnessState.callerBusy = none ∧
    fifoWitnessState.queue = fifoWitnessState.log.filterMap lenSynth := by
  exact worker_single_unit_in_flight_fifo lenSynth 50
    ({ buffer := List.replicate 51 'a' ++ [';', 'x'], workerBusy := none,
       callerBusy := none, queue := [], log := [] } : ConcState Nat) _
    (WorkerRun.finish
      (WorkerRun.start (WorkerRun.refl _) rfl
        (show shouldProcessBuffer 50 (List.replicate 51 'a' ++ [';', 'x']) =
            some (List.replicate 51 'a' ++ [';'], ['x']) by decide))
      rfl)
    rfl rfl

/-! ### Delivery-channel idle close (`/tts-stream`, routes.py 181–241)

Time is modelled in deciseconds.  `max_idle_time = 10` seconds is
`maxIdleDs = 100`; the loop breaks when `idle_count > 5`.  One loop
iteration advances the clock by a poll interval `δ` (the audio fetch
plus the `asyncio.sleep`). -/

/-- 10-second idle threshold (`max_idle_time`), in deciseconds. -/
def maxIdleDs : Nat := 100

/-- The idle-strike bound: the loop breaks when `idle_count > 5`. -/
def strikeLimit : Nat := 5

/-- Loop-local state of the `/tts-stream` generator: current time,
time of the last delivered audio (`last_audio_time`), and the
idle-strike counter (`idle_count`). -/
structure StreamState where
  t : Nat
  lastAudio : Nat
  idleCount : Nat
  deriving DecidableEq, Repr

/-- One iteration of the `/tts-stream` while-loop: on audio, the strike
counter resets and `last_audio_time` is updated; otherwise, if the TTS
text buffer is empty and the elapsed idle time strictly exceeds
`max_idle_time`, the strike counter increments and the loop breaks
(second component `true`) as soon as the counter exceeds
`strikeLimit`; otherwise a keep-alive ping is sent.  Each non-breaking
iteration advances the clock by the poll interval `δ`. -/
def streamStep (δ : Nat) (st : StreamState) (hasAudio textEmpty : Bool) :
    StreamState × Bool :=
  if hasAudio then
    ({ t := st.t + δ, lastAudio := st.t, idleCount := 0 }, false)
  else if textEmpty = true ∧ maxIdleDs < st.t - st.lastAudio then
    let ic := st.idleCount + 1
    if strikeLimit < ic then ({ st with idleCount := ic }, true)
    else ({ st with t := st.t + δ, idleCount := ic }, false)
  else
    ({ st with t := st.t + δ }, false)

/-- Run the stream loop on the fully idle input (no audio ever arrives,
the text buffer stays empty); returns the closing time, or `none` if
the fuel runs out first. -/
def idleRun (δ : Nat) : Nat → StreamState → Option Nat
  | 0, _ => none
  | fuel + 1, st =>
    match streamStep δ st false true with
    | (st', true) => some st'.t
    | (st', false) => idleRun δ fuel st'

/-- The initial loop state: the clock starts at the stream start, which
also initializes `last_audio_time`. -/
def initStream : StreamState := { t := 0, lastAudio := 0, idleCount := 0 }

/-! ### Claim C5 -/

/-- C5 (counterexample): with a poll interval of 1 decisecond, a stream
that never receives audio while the text buffer is empty closes at
t = 106 ds (10 s threshold plus 6 polls), not within one poll interval
of the claimed idleTimeout × strikeCount = 50 s = 500 ds threshold. -/
theorem idle_close_not_at_fifty_seconds :
    idleRun 1 200 initStream = some 106 ∧
    ¬ (500 - 1 ≤ 106 ∧ 106 ≤ 500 + 1) := by
  constructor
  · decide
  · decide

/-- C5 (amended): new audio resets the idle-strike counter; while the
idle time is at most 10 s no strike is taken and the stream stays open;
once the idle time strictly exceeds 10 s, every poll iteration (not
every 10-second period) increments the counter, and the stream closes
exactly when the counter exceeds 5; consequently the fully idle stream
closes at `maxIdleDs` plus `strikeLimit + 1` poll intervals after the
last audio (10.6 s at a 0.1 s poll), far before idleTimeout ×
strikeCount. -/
theorem idle_close_strike_behaviour (δ : Nat) (st : StreamState) (e : Bool) :
    ((streamStep δ st true e).1.idleCount = 0 ∧
      (streamStep δ st true e).2 = false) ∧
    (st.t - st.lastAudio ≤ maxIdleDs →
      (streamStep δ st false true).1.idleCount = st.idleCount ∧
      (streamStep δ st false true).2 = false) ∧
    (maxIdleDs < st.t - st.lastAudio →
      (streamStep δ st false true).1.idleCount = st.idleCount + 1 ∧
      ((streamStep δ st false true).2 = true ↔ strikeLimit < st.idleCount + 1)) ∧
    idleRun 1 200 initStream = some (maxIdleDs + (strikeLimit + 1)) := by
  refine ⟨⟨?_, ?_⟩, fun hle => ?_, fun hgt => ?_, by decide⟩
  · simp [streamStep]
  · simp [streamStep]
  · have hc : ¬ (maxIdleDs < st.t - st.lastAudio) := by omega
    constructor <;> simp [streamStep, hc]
  · by_cases hs : strikeLimit < st.idleCount + 1
    · constructor <;> simp [streamStep, hgt, hs]
    · constructor <;> simp [streamStep, hgt, hs]

/-- C5 witness: at 10.1 s of idleness with an empty buffer, one poll
takes the first strike and the stream stays open (5 < 1 is false). -/
theorem idle_close_strike_behaviour_witness :
    ((streamStep 1 { t := 101, lastAudio := 0, idleCount := 0 } true
        true).1.idleCount = 0 ∧
      (streamStep 1 { t := 101, lastAudio := 0, idleCount := 0 } true
        true).2 = false) ∧
    ((streamStep 1 { t := 101, lastAudio := 0, idleCount := 0 } false
        true).1.idleCount = 0 + 1 ∧
      ((streamStep 1 { t := 101, lastAudio := 0, idleCount := 0 } false
        true).2 = true ↔ strikeLimit < 0 + 1)) := by
  have h := idle_close_strike_behaviour 1
    { t := 101, lastAudio := 0, idleCount := 0 } true
  exact ⟨h.1, h.2.2.1 (by decide)⟩

/-! ### Generator failure during a turn (llm.py 588–599, routes.py 375–432)

`LLMManager.generate_stream` wraps its generation loop in a
`try/except` whose handler yields one error-message chunk
(`"生成過程中發生錯誤: " + str(e)`) and then ends the generator
normally — it never re-raises.  The `/llm` route therefore sees an
ordinary end of stream, force-flushes, and returns a normal
`ChatResponse`; its own `except` branch (HTTPException, no flush) fires
only if an exception propagates out of the loop body. -/

/-- An item produced by the token stream: a text chunk, or an exception
propagating to the consumer. -/
inductive StreamItem where
  | chunk (t : Str)
  | raised (e : Str)
  deriving DecidableEq, Repr

/-- The error-message chunk yielded by `generate_stream`'s `except`
handler. -/
def errChunk (e : Str) : Str := ("生成過程中發生錯誤: ").toList ++ e

/-- `LLMManager.generate_stream` with an abstract token sequence and an
optional mid-stream failure after `k` tokens: the tokens before the
failure are yielded, then the handler yields `errChunk e`; no exception
ever escapes the generator. -/
def generateStream (tokens : List Str) (failAt : Option (Nat × Str)) :
    List StreamItem :=
  match failAt with
  | none => tokens.map StreamItem.chunk
  | some (k, e) => (tokens.take k).map StreamItem.chunk ++
      [StreamItem.chunk (errChunk e)]

/-- Outcome of one `/llm` turn: whether a normal `ChatResponse` was
returned, the accumulated response text, and the TTS text state. -/
structure TurnResult where
  ok : Bool
  response : Str
  tts : PipeState
  deriving DecidableEq, Repr

/-- The `/llm` streaming loop: accumulate each chunk into
`full_response` and feed it to `add_text`; at normal end of stream,
`force_process` and return success; a raised exception aborts to the
route's `except` branch (failure, no force flush). -/
def chatLoop (acc : Str) (st : PipeState) : List StreamItem → TurnResult
  | [] => { ok := true, response := acc, tts := forceProcess st }
  | StreamItem.chunk t :: rest => chatLoop (acc ++ t) (addText st t) rest
  | StreamItem.raised _ :: _ => { ok := false, response := acc, tts := st }

/-- One `/llm` turn over a given stream, from a fresh TTS text state. -/
def chatTurn (items : List StreamItem) : TurnResult := chatLoop [] initPipe items

theorem concatStr_units_forceProcess (st : PipeState) :
    concatStr (forceProcess st).units = content st := by
  rw [← content_forceProcess]
  unfold content
  rw [forceProcess_buffer, List.append_nil]

theorem content_foldl_addText (l : List Str) :
    ∀ st : PipeState, content (l.foldl addText st) = content st ++ concatStr l := by
  induction l with
  | nil => intro st; simp [concatStr]
  | cons t l ih =>
    intro st
    rw [List.foldl_cons, ih, content_addText]
    simp [concatStr, List.append_assoc]

theorem chatLoop_chunks (l : List Str) :
    ∀ (acc : Str) (st : PipeState),
    chatLoop acc st (l.map StreamItem.chunk) =
      { ok := true, response := acc ++ concatStr l,
        tts := forceProcess (l.foldl addText st) } := by
  induction l with
  | nil => intro acc st; simp [chatLoop, concatStr]
  | cons t l ih =>
    intro acc st
    rw [List.map_cons, chatLoop, ih]
    simp [concatStr, List.append_assoc]

/-! ### Claim C6 -/

/-- C6 (counterexample): a Generator failure mid-stream does not
surface a turn-level failure.  With one token delivered and a failure
before the second, the turn returns a success result whose response is
the partial text followed by the in-stream error message. -/
theorem generator_failure_turn_still_succeeds :
    (chatTurn (generateStream [("Hello ").toList, ("world").toList]
        (some (1, ("boom").toList)))).ok = true ∧
    (chatTurn (generateStream [("Hello ").toList, ("world").toList]
        (some (1, ("boom").toList)))).response =
      ("Hello ").toList ++ errChunk (("boom").toList) := by
  constructor
  · decide
  · decide

/-- C6 (amended): if the Generator fails mid-stream after `k` tokens,
the text accumulated up to the failure plus the in-stream error-message
chunk is still force-flushed to synthesis (partial speech is not lost:
the concatenation of the text units handed to synthesis equals the
returned response, and the buffer ends empty), but the error is not
propagated: the turn completes normally, returning the accumulated text
with the error message embedded, rather than surfacing a turn-level
failure. -/
theorem generator_failure_flushed_but_turn_succeeds
    (tokens : List Str) (k : Nat) (e : Str) :
    (chatTurn (generateStream tokens (some (k, e)))).ok = true ∧
    (chatTurn (generateStream tokens (some (k, e)))).response =
      concatStr (tokens.take k) ++ errChunk e ∧
    (chatTurn (generateStream tokens (some (k, e)))).tts.buffer = [] ∧
    concatStr (chatTurn (generateStream tokens (some (k, e)))).tts.units =
      concatStr (tokens.take k) ++ errChunk e := by
  have hmap : generateStream tokens (some (k, e)) =
      (tokens.take k ++ [errChunk e]).map StreamItem.chunk := by
    simp [generateStream]
  rw [chatTurn, hmap, chatLoop_chunks]
  refine ⟨rfl,
    by rw [List.nil_append, concatStr_append, concatStr_singleton],
    forceProcess_buffer _, ?_⟩
  rw [concatStr_units_forceProcess, content_foldl_addText,
    show content initPipe = [] from rfl, List.nil_append,
    concatStr_append, concatStr_singleton]

/-! ### Conversation-history compaction (routes.py 96–141 and 413–421)

`optimize_conversation_history` keeps the last two messages and
replaces everything older by one system message carrying an
LLM-generated summary; the `/llm` route invokes it whenever the stored
history exceeds 4 messages.  The summarizing LLM call is abstracted as
`llm : Option Str` (`none` models `llm_manager.generate` raising, in
which case the code substitutes a fixed fallback text). -/

/-- A role-tagged conversation message. -/
structure Msg where
  role : Str
  content : Str
  deriving DecidableEq, Repr

/-- The fallback summary used when the LLM summary call raises. -/
def summaryFallback : Str :=
  ("Previous conversation about English learning (summary generation failed)").toList

/-- The prefix of the compaction system message
(`f"Previous conversation summary: {summary}"`). -/
def summaryPrefix : Str := ("Previous conversation summary: ").toList

/-- `generate_conversation_summary`: empty for fewer than two messages;
otherwise the LLM's summary, truncated to 100 characters
(`summary[:97] + "..."`), or the fallback text on an LLM exception. -/
def generateConversationSummary (llm : Option Str) (msgs : List Msg) : Str :=
  if msgs.length < 2 then []
  else
    match llm with
    | none => summaryFallback
    | some s => if 100 < s.length then s.take 97 ++ ("...").toList else s

/-- `optimize_conversation_history`: keep the last two messages
(`history[-2:]`); if anything older exists and the summary is nonempty,
prepend one system message `"Previous conversation summary: " +
summary`; otherwise return just the recent messages. -/
def optimizeConversationHistory (llm : Option Str) (history : List Msg) :
    List Msg :=
  let recent := history.drop (history.length - 2)
  let earlier := history.take (history.length - 2)
  if earlier = [] then recent
  else
    let summary := generateConversationSummary llm earlier
    if summary = [] then recent
    else { role := ("system").toList, content := summaryPrefix ++ summary } :: recent

/-- The post-turn history update of the `/llm` route: compact whenever
the stored history holds more than 4 messages. -/
def chatUpdateHistory (llm : Option Str) (h : List Msg) : List Msg :=
  if 4 < h.length then optimizeConversationHistory llm h else h

/-! ### Claim C9 -/

/-- C9: after a completed `/llm` turn, whenever the stored history
exceeds 4 messages it is compacted to at most 3 messages: at most one
system message whose content begins with
`"Previous conversation summary: "` followed by exactly the last 2
messages of the pre-compaction history (every older message is
removed); and whenever the summarizer yields any nonempty text (in
particular on the exception fallback), the result is exactly that
system message followed by the last 2. -/
theorem history_compacted_to_summary_plus_last_two
    (llm : Option Str) (h : List Msg) (hlen : 4 < h.length) :
    (chatUpdateHistory llm h).length ≤ 3 ∧
    (∃ pre : List Msg,
      chatUpdateHistory llm h = pre ++ h.drop (h.length - 2) ∧
      pre.length ≤ 1 ∧
      ∀ m ∈ pre, m.role = ("system").toList ∧ summaryPrefix <+: m.content) ∧
    (llm ≠ some [] →
      ∃ s : Str, s ≠ [] ∧
        chatUpdateHistory llm h =
          ⟨("system").toList, summaryPrefix ++ s⟩ :: h.drop (h.length - 2)) := by
  have hrec : (h.drop (h.length - 2)).length = 2 := by
    rw [List.length_drop]; omega
  have htk : (h.take (h.length - 2)).length = h.length - 2 := by
    rw [List.length_take]; omega
  have hne : h.take (h.length - 2) ≠ [] := by
    intro h0
    rw [h0] at htk
    simp at htk
    omega
  have hnlt : ¬ ((h.take (h.length - 2)).length < 2) := by omega
  rw [chatUpdateHistory, if_pos hlen, optimizeConversationHistory]
  simp only [if_neg hne]
  rcases llm with _ | s
  · have hsum : generateConversationSummary none (h.take (h.length - 2)) =
        summaryFallback := by
      rw [generateConversationSummary, if_neg hnlt]
    rw [hsum]
    have hfb : summaryFallback ≠ [] := by decide
    simp only [if_neg hfb]
    refine ⟨by simp [hrec], ⟨[⟨("system").toList, summaryPrefix ++ summaryFallback⟩],
      by simp, by simp, ?_⟩, fun _ => ⟨summaryFallback, hfb, rfl⟩⟩
    intro m hm
    simp at hm
    subst hm
    exact ⟨rfl, ⟨summaryFallback, rfl⟩⟩
  · have hsum : generateConversationSummary (some s) (h.take (h.length - 2)) =
        (if 100 < s.length then s.take 97 ++ ("...").toList else s) := by
      rw [generateConversationSummary, if_neg hnlt]
    rw [hsum]
    by_cases hlong : 100 < s.length
    · have hnn : (s.take 97 ++ ("...").toList : Str) ≠ [] := by simp
      simp only [if_pos hlong, if_neg hnn]
      refine ⟨by simp [hrec],
        ⟨[⟨("system").toList, summaryPrefix ++ (s.take 97 ++ ("...").toList)⟩],
          by simp, by simp, ?_⟩,
        fun _ => ⟨s.take 97 ++ ("...").toList, hnn, rfl⟩⟩
      intro m hm
      simp at hm
      subst hm
      exact ⟨rfl, ⟨_, rfl⟩⟩
    · simp only [if_neg hlong]
      by_cases hs : s = []
      · subst hs
        simp only [if_pos rfl]
        refine ⟨by simp [hrec], ⟨[], by simp, by simp, by simp⟩, fun hne2 => ?_⟩
        exact absurd rfl hne2
      · simp only [if_neg hs]
        refine ⟨by simp [hrec],
          ⟨[⟨("system").toList, summaryPrefix ++ s⟩], by simp, by simp, ?_⟩,
          fun _ => ⟨s, hs, rfl⟩⟩
        intro m hm
        simp at hm
        subst hm
        exact ⟨rfl, ⟨s, rfl⟩⟩

/-- C9 witness: a five-message history with a short nonempty LLM summary
is compacted to the summary system message plus the last two messages. -/
theorem history_compaction_witness :
    (chatUpdateHistory (some (("greetings practice").toList))
        [⟨("user").toList, ("a").toList⟩, ⟨("assistant").toList, ("b").toList⟩,
         ⟨("user").toList, ("c").toList⟩, ⟨("assistant").toList, ("d").toList⟩,
         ⟨("user").toList, ("e").toList⟩]).length ≤ 3 ∧
    (∃ pre : List Msg,
      chatUpdateHistory (some (("greetings practice").toList))
          [⟨("user").toList, ("a").toList⟩, ⟨("assistant").toList, ("b").toList⟩,
           ⟨("user").toList, ("c").toList⟩, ⟨("assistant").toList, ("d").toList⟩,
           ⟨("user").toList, ("e").toList⟩] =
        pre ++ ([⟨("user").toList, ("a").toList⟩,
           ⟨("assistant").toList, ("b").toList⟩,
           ⟨("user").toList, ("c").toList⟩, ⟨("assistant").toList, ("d").toList⟩,
           ⟨("user").toList, ("e").toList⟩] : List Msg).drop
          (([⟨("user").toList, ("a").toList⟩, ⟨("assistant").toList, ("b").toList⟩,
             ⟨("user").toList, ("c").toList⟩, ⟨("assistant").toList, ("d").toList⟩,
             ⟨("user").toList, ("e").toList⟩] : List Msg).length - 2) ∧
      pre.length ≤ 1 ∧
      ∀ m ∈ pre, m.role = ("system").toList ∧ summaryPrefix <+: m.content) ∧
    ((some (("greetings practice").toList) : Option Str) ≠ some [] →
      ∃ s : Str, s ≠ [] ∧
        chatUpdateHistory (some (("greetings practice").toList))
            [⟨("user").toList, ("a").toList⟩, ⟨("assistant").toList, ("b").toList⟩,
             ⟨("user").toList, ("c").toList⟩, ⟨("assistant").toList, ("d").toList⟩,
             ⟨("user").toList, ("e").toList⟩] =
          ⟨("system").toList, summaryPrefix ++ s⟩ ::
            ([⟨("user").toList, ("a").toList⟩, ⟨("assistant").toList, ("b").toList⟩,
              ⟨("user").toList, ("c").toList⟩, ⟨("assistant").toList, ("d").toList⟩,
              ⟨("user").toList, ("e").toList⟩] : List Msg).drop
              (([⟨("user").toList, ("a").toList⟩,
                 ⟨("assistant").toList, ("b").toList⟩,
                 ⟨("user").toList, ("c").toList⟩,
                 ⟨("assistant").toList, ("d").toList⟩,
                 ⟨("user").toList, ("e").toList⟩] : List Msg).length - 2)) :=
  history_compacted_to_summary_plus_last_two
    (some (("greetings practice").toList)) _ (by decide)

/-! ### Pronunciation scoring (`/pronunciation`, routes.py 503–534)

`difflib.SequenceMatcher(...).ratio()` returns a similarity in `[0, 1]`,
modelled as a rational; `round` is Python 3 rounding (half to even);
the grade ladder is the `if/elif` chain of the handler. -/

/-- Python 3 `round` to an integer: nearest integer, ties to even. -/
def pyRound (q : ℚ) : ℤ :=
  if q - ⌊q⌋ < 1/2 then ⌊q⌋
  else if 1/2 < q - ⌊q⌋ then ⌊q⌋ + 1
  else if Even ⌊q⌋ then ⌊q⌋ else ⌊q⌋ + 1

/-- `accuracy = round(similarity * 100)`. -/
def accuracy (sim : ℚ) : ℤ := pyRound (sim * 100)

/-- The pronunciation letter grades. -/
inductive Grade where
  | F | D | C | B | A | APlus
  deriving DecidableEq, Repr

/-- The grade ladder of `evaluate_pronunciation`: default `"A+"`,
downgraded by the `if/elif` chain on accuracy. -/
def gradeOf (a : ℤ) : Grade :=
  if a < 60 then Grade.F
  else if a < 70 then Grade.D
  else if a < 80 then Grade.C
  else if a < 90 then Grade.B
  else if a < 95 then Grade.A
  else Grade.APlus

/-- Order of the grades, for monotonicity. -/
def gradeRank : Grade → Nat
  | Grade.F => 0
  | Grade.D => 1
  | Grade.C => 2
  | Grade.B => 3
  | Grade.A => 4
  | Grade.APlus => 5

theorem pyRound_nonneg_le (q : ℚ) (h0 : 0 ≤ q) (h1 : q ≤ 100) :
    0 ≤ pyRound q ∧ pyRound q ≤ 100 := by
  have hf0 : (0 : ℤ) ≤ ⌊q⌋ := Int.floor_nonneg.mpr h0
  have hf1 : ⌊q⌋ ≤ 100 := by
    have := Int.floor_le_floor h1
    simpa using this
  unfold pyRound
  split_ifs with hr1 hr2 hev
  · exact ⟨hf0, hf1⟩
  · have hlt : (⌊q⌋ : ℚ) < q := by linarith
    have hlt2 : (⌊q⌋ : ℚ) < 100 := lt_of_lt_of_le hlt h1
    have hlt3 : ⌊q⌋ < 100 := by exact_mod_cast hlt2
    omega
  · exact ⟨hf0, hf1⟩
  · have hge : (1 : ℚ)/2 ≤ q - ⌊q⌋ := le_of_not_lt hr1
    have hlt : (⌊q⌋ : ℚ) < q := by linarith
    have hlt2 : (⌊q⌋ : ℚ) < 100 := lt_of_lt_of_le hlt h1
    have hlt3 : ⌊q⌋ < 100 := by exact_mod_cast hlt2
    omega

/-! ### Claim C10 -/

/-- C10: for a similarity ratio in `[0, 1]`, the returned accuracy
`round(similarity × 100)` is an integer between 0 and 100, and the
grade is a total monotone function of accuracy alone with exact
thresholds: F below 60, D on 60–69, C on 70–79, B on 80–89, A on
90–94, and A+ from 95 up. -/
theorem pronunciation_accuracy_bounds_and_grade
    (sim : ℚ) (h0 : 0 ≤ sim) (h1 : sim ≤ 1) (a b : ℤ) (hab : a ≤ b) :
    0 ≤ accuracy sim ∧ accuracy sim ≤ 100 ∧
    gradeRank (gradeOf a) ≤ gradeRank (gradeOf b) ∧
    (gradeOf a = Grade.F ↔ a < 60) ∧
    (gradeOf a = Grade.D ↔ 60 ≤ a ∧ a < 70) ∧
    (gradeOf a = Grade.C ↔ 70 ≤ a ∧ a < 80) ∧
    (gradeOf a = Grade.B ↔ 80 ≤ a ∧ a < 90) ∧
    (gradeOf a = Grade.A ↔ 90 ≤ a ∧ a < 95) ∧
    (gradeOf a = Grade.APlus ↔ 95 ≤ a) := by
  have hq0 : (0 : ℚ) ≤ sim * 100 := mul_nonneg h0 (by norm_num)
  have hq1 : sim * 100 ≤ 100 := by nlinarith
  have hb := pyRound_nonneg_le (sim * 100) hq0 hq1
  refine ⟨hb.1, hb.2, ?_, ?_, ?_, ?_, ?_, ?_, ?_⟩
  · unfold gradeOf
    split_ifs <;> simp [gradeRank] <;> omega
  · unfold gradeOf
    split_ifs <;> simp <;> omega
  · unfold gradeOf
    split_ifs <;> simp <;> omega
  · unfold gradeOf
    split_ifs <;> simp <;> omega
  · unfold gradeOf
    split_ifs <;> simp <;> omega
  · unfold gradeOf
    split_ifs <;> simp <;> omega
  · unfold gradeOf
    split_ifs <;> simp <;> omega

/-- C10 witness: with similarity 87/100 the bounds hold, and grades at
65 and 92 respect the thresholds and monotonicity. -/
theorem pronunciation_accuracy_bounds_and_grade_witness :
    0 ≤ accuracy (87/100) ∧ accuracy (87/100) ≤ 100 ∧
    gradeRank (gradeOf 65) ≤ gradeRank (gradeOf 92) ∧
    (gradeOf 65 = Grade.F ↔ (65 : ℤ) < 60) ∧
    (gradeOf 65 = Grade.D ↔ (60 : ℤ) ≤ 65 ∧ (65 : ℤ) < 70) ∧
    (gradeOf 65 = Grade.C ↔ (70 : ℤ) ≤ 65 ∧ (65 : ℤ) < 80) ∧
    (gradeOf 65 = Grade.B ↔ (80 : ℤ) ≤ 65 ∧ (65 : ℤ) < 90) ∧
    (gradeOf 65 = Grade.A ↔ (90 : ℤ) ≤ 65 ∧ (65 : ℤ) < 95) ∧
    (gradeOf 65 = Grade.APlus ↔ (95 : ℤ) ≤ 65) :=
  pronunciation_accuracy_bounds_and_grade (87/100) (by norm_num) (by norm_num)
    65 92 (by norm_num)

/-! ### Model validation on concrete inputs (Scenario A of the spec, and
the whitespace-deletion relation) -/
example :
    shouldProcessBuffer 5 ("Hello, how are you today?".toList) =
      some ("Hello, how are you today?".toList, []) := by decide

example : shouldProcessBuffer 50 ("Hi.".toList) = none := by decide

example : addText initPipe ("Hi.".toList) =
    { buffer := [], units := [("Hi.".toList)] } := by decide

example : wsDeletes (" a b ".toList) ("a b".toList) = true := by decide
example : wsDeletes ("ab".toList) ("a".toList) = false := by decide
